import Mathlib

/-!
# Verification of the `logsviewer` tailing-and-parsing engine

Shallow embedding of the core of `marcuzy/logsviewer` (Go):

* `internal/logs/entry.go` — per-line JSON entry parsing: timestamp
  heuristics (`parseUnixNumber`, `parseTimeString`, `extractTimestamp`),
  message/extra coercion (`extractString`), `parseEntry`.
* `internal/config/config.go` (tailer part) — per-file cursor state
  (`fileState`), incremental reads (`readNewLines`), initial reads
  (`readAll` via `bufio.Scanner`), tail truncation and the batch
  processing loops of `emitInitial` / `readNewData`.

Modelling conventions:

* Go strings/byte sequences are `List Char` (`GoStr`).
* Go `float64` values are `ℚ`; for every concrete value exercised here the
  Go floating-point arithmetic is exact, so rational arithmetic is faithful.
* Go `time.Time` instants are `Int` nanoseconds since the Unix epoch; the
  zero `time.Time{}` is `Option.none`.  `time.Unix` is `timeUnix`.
* External standard-library calls that the repository performs
  (`encoding/json.Unmarshal`, `time.Parse`, `strconv.ParseFloat`) are
  modelled as components of a `GoLib` record supplied to the pipeline:
  theorems quantify over them, witnesses instantiate them concretely.
  Rendering helpers (`time.Format`, `fmt.Sprint`, `json.Marshal`,
  `strconv.Format*`) are given executable models whose exact digit/escape
  choices are irrelevant to the claims (only structure and non-emptiness
  are relied upon).
-/

/-- Go strings (byte sequences) are modelled as lists of characters. -/
abbrev GoStr := List Char

/-- Convenience: the characters of a Lean string literal, used to write
concrete Go strings. -/
def chars (s : String) : GoStr := s.data

/-- Go's `int64(f)` conversion for `float64`: truncation toward zero,
modelled on `ℚ`. -/
def goTrunc (q : ℚ) : Int :=
  if q < 0 then ⌈q⌉ else ⌊q⌋

/-- `time.Unix(sec, nsec)` as an absolute instant in nanoseconds since the
Unix epoch. -/
def timeUnix (sec nsec : Int) : Int :=
  sec * 1000000000 + nsec

/-- `parseUnixNumber` from `internal/logs/entry.go`: classify a numeric
timestamp by magnitude and convert to an absolute instant.

```go
switch {
case n > 1e18: return time.Unix(0, int64(n))
case n > 1e15: return time.Unix(0, int64(n))
case n > 1e12: return time.Unix(0, int64(n*1e6))
case n > 1e9:  return time.Unix(int64(n), 0)
default:       return time.Unix(0, int64(n*1e9))
}
``` -/
def parseUnixNumber (n : ℚ) : Int :=
  if n > 1000000000000000000 then timeUnix 0 (goTrunc n)
  else if n > 1000000000000000 then timeUnix 0 (goTrunc n)
  else if n > 1000000000000 then timeUnix 0 (goTrunc (n * 1000000))
  else if n > 1000000000 then timeUnix (goTrunc n) 0
  else timeUnix 0 (goTrunc (n * 1000000000))

/-- The numeric-unit table exactly as claim C1 words it: `> 1e18` →
nanoseconds; `> 1e15` → nanoseconds; `> 1e12` → microseconds (multiply by
`1e3` to normalize to nanoseconds); `> 1e9` → seconds; otherwise fractional
seconds (multiply by `1e9`). -/
def claimedUnitNanos (n : ℚ) : Int :=
  if n > 1000000000000000000 then goTrunc n
  else if n > 1000000000000000 then goTrunc n
  else if n > 1000000000000 then goTrunc (n * 1000)
  else if n > 1000000000 then goTrunc n * 1000000000
  else goTrunc (n * 1000000000)

/-- The numeric-unit table with the `> 1e12` branch amended to
milliseconds (multiply by `1e6`), the only change the code forces on
claim C1. -/
def amendedUnitNanos (n : ℚ) : Int :=
  if n > 1000000000000000000 then goTrunc n
  else if n > 1000000000000000 then goTrunc n
  else if n > 1000000000000 then goTrunc (n * 1000000)
  else if n > 1000000000 then goTrunc n * 1000000000
  else goTrunc (n * 1000000000)

/-! ## Textual rendering models

Executable models of the rendering functions the repository calls in the
standard library: `strconv.Itoa`-style decimal digits, `time.Format`
with the `time.RFC3339Nano` layout, `strconv.FormatFloat`,
`strconv.FormatBool`, `fmt.Sprint`, and `encoding/json.Marshal`.  The
claims rely only on the structure of those strings (which arms produce
them, and their non-emptiness), never on precise digit or escape choices.
-/

/-- Digit-accumulation loop: pushes the decimal digits of `n` (least
significant first) onto `acc`.  The fuel argument only bounds the loop;
`natDigits` supplies enough for every input. -/
def natDigitsAux : Nat → Nat → List Char → List Char
  | 0, _, acc => acc
  | fuel + 1, n, acc =>
    if n < 10 then Nat.digitChar n :: acc
    else natDigitsAux fuel (n / 10) (Nat.digitChar (n % 10) :: acc)

/-- Decimal digits of a natural number, most significant first. -/
def natDigits (n : Nat) : List Char :=
  natDigitsAux (n + 1) n []

/-- Decimal rendering of an integer, with a leading minus sign when
negative. -/
def intDigits (n : Int) : List Char :=
  if n < 0 then '-' :: natDigits n.natAbs else natDigits n.natAbs

/-- Left-pad a digit string with `'0'` up to the given width. -/
def leftPadZero (width : Nat) (ds : List Char) : List Char :=
  List.replicate (width - ds.length) '0' ++ ds

/-- Two-digit zero-padded field of a timestamp layout. -/
def pad2 (n : Nat) : List Char := leftPadZero 2 (natDigits n)

/-- Civil date from a count of days since 1970-01-01 (proleptic Gregorian
calendar, Euclidean divisions), as used to render an instant. -/
def civilFromDays (z0 : Int) : Int × Int × Int :=
  let z := z0 + 719468
  let era := Int.ediv z 146097
  let doe := z - era * 146097
  let yoe := Int.ediv (doe - Int.ediv doe 1460 + Int.ediv doe 36524 - Int.ediv doe 146096) 365
  let y := yoe + era * 400
  let doy := doe - (365 * yoe + Int.ediv yoe 4 - Int.ediv yoe 100)
  let mp := Int.ediv (5 * doy + 2) 153
  let d := doy - Int.ediv (153 * mp + 2) 5 + 1
  let m := mp + (if mp < 10 then 3 else -9)
  (y + (if m ≤ 2 then 1 else 0), m, d)

/-- Remove trailing `'0'` characters (fractional-second rendering of the
`.999999999` layout element). -/
def trimTrailingZeros (l : List Char) : List Char :=
  (l.reverse.dropWhile (fun c => c = '0')).reverse

/-- Year field of the rendered timestamp: four zero-padded digits, with a
sign for negative years. -/
def yearField (y : Int) : List Char :=
  if y < 0 then '-' :: leftPadZero 4 (natDigits y.natAbs)
  else leftPadZero 4 (natDigits y.natAbs)

/-- Model of `ts.Format(time.RFC3339Nano)` on the instant `t` (nanoseconds
since the epoch): `YYYY-MM-DDTHH:MM:SS[.fraction]Z`.  The repository
formats in the local zone; the zone choice is immaterial to every claim,
so the model renders UTC. -/
def formatTs (t : Int) : GoStr :=
  let sec := Int.ediv t 1000000000
  let ns := (Int.emod t 1000000000).toNat
  let days := Int.ediv sec 86400
  let sod := (Int.emod sec 86400).toNat
  let ymd := civilFromDays days
  let frac := if ns = 0 then [] else
    '.' :: trimTrailingZeros (leftPadZero 9 (natDigits ns))
  yearField ymd.1 ++ '-' :: pad2 ymd.2.1.toNat ++ '-' :: pad2 ymd.2.2.toNat ++
    'T' :: pad2 (sod / 3600) ++ ':' :: pad2 (sod % 3600 / 60) ++
    ':' :: pad2 (sod % 60) ++ frac ++ ['Z']

/-- Model of `strconv.FormatFloat(v, 'f', -1, 64)` (also used for JSON
number rendering).  Integral values render as their exact decimal digits,
matching Go; for non-integral values the model renders `num/den`, a
value-faithful stand-in whose exact digits no claim inspects. -/
def formatFloat (q : ℚ) : GoStr :=
  if q.den = 1 then intDigits q.num
  else intDigits q.num ++ '/' :: natDigits q.den

/-- `strconv.FormatBool`. -/
def formatBool (b : Bool) : GoStr :=
  if b then chars "true" else chars "false"

/-! ## Decoded JSON values

`encoding/json.Unmarshal` into `map[string]any` produces exactly the
dynamic types `nil`, `bool`, `float64`, `string`, `[]any` and
`map[string]any`.  `Jval` is that value universe; a decoded object is an
association list of `GoStr` keys.  A missing map key reads as Go `nil`,
which is the same dynamic value as decoded JSON `null` (`Jval.null`). -/
inductive Jval where
  | null : Jval
  | bool (b : Bool) : Jval
  | num (q : ℚ) : Jval
  | str (s : GoStr) : Jval
  | arr (xs : List Jval) : Jval
  | obj (fields : List (GoStr × Jval)) : Jval

/-- Reading `fields[name]` on a Go map decoded from JSON: a missing key
yields the `nil` interface value, indistinguishable from JSON `null`. -/
def mapGet (fields : List (GoStr × Jval)) (name : GoStr) : Jval :=
  match fields.lookup name with
  | some v => v
  | none => Jval.null

/-- Lexicographic byte-wise comparison of Go strings (`<` of `sort`),
used because Go renders maps with sorted keys. -/
def strLe : GoStr → GoStr → Bool
  | [], _ => true
  | _ :: _, [] => false
  | a :: as, b :: bs =>
    if a = b then strLe as bs else decide (a.toNat ≤ b.toNat)

/-- Insertion into a `le`-sorted list. -/
def insertSorted (le : GoStr → GoStr → Bool) (x : GoStr × GoStr) :
    List (GoStr × GoStr) → List (GoStr × GoStr)
  | [] => [x]
  | y :: ys => if le x.1 y.1 then x :: y :: ys else y :: insertSorted le x ys

/-- Insertion sort of rendered key/value pairs by key. -/
def sortPairs : List (GoStr × GoStr) → List (GoStr × GoStr)
  | [] => []
  | x :: xs => insertSorted strLe x (sortPairs xs)

/-- JSON string escaping as `encoding/json` performs it (quotes,
backslashes, control characters, and the HTML-sensitive `<`, `>`, `&`). -/
def escapeJSONChar (c : Char) : List Char :=
  if c = '"' then ['\\', '"']
  else if c = '\\' then ['\\', '\\']
  else if c = '\n' then ['\\', 'n']
  else if c = '\r' then ['\\', 'r']
  else if c = '\t' then ['\\', 't']
  else if c = '<' then chars "\\u003c"
  else if c = '>' then chars "\\u003e"
  else if c = '&' then chars "\\u0026"
  else if c.toNat < 32 then
    chars "\\u00" ++ [Nat.digitChar (c.toNat / 16), Nat.digitChar (c.toNat % 16)]
  else [c]

/-- Escape a whole string. -/
def escapeJSON (s : GoStr) : GoStr :=
  (s.map escapeJSONChar).flatten

/-- Interleave a separator between rendered fragments and concatenate. -/
def joinSep (sep : GoStr) : List GoStr → GoStr
  | [] => []
  | [x] => x
  | x :: xs => x ++ sep ++ joinSep sep xs

mutual
/-- Model of `encoding/json.Marshal` on a decoded value: compact JSON,
object keys sorted (as Go marshals maps). -/
def jsonMarshal : Jval → GoStr
  | .null => chars "null"
  | .bool b => formatBool b
  | .num q => formatFloat q
  | .str s => '"' :: escapeJSON s ++ ['"']
  | .arr xs => '[' :: joinSep [','] (jsonMarshalList xs) ++ [']']
  | .obj o =>
    '{' :: joinSep [',']
      ((sortPairs (jsonMarshalObj o)).map
        (fun kv => '"' :: escapeJSON kv.1 ++ '"' :: ':' :: kv.2)) ++ ['}']

/-- Marshal each element of an array. -/
def jsonMarshalList : List Jval → List GoStr
  | [] => []
  | v :: vs => jsonMarshal v :: jsonMarshalList vs

/-- Marshal each value of an object, keeping keys. -/
def jsonMarshalObj : List (GoStr × Jval) → List (GoStr × GoStr)
  | [] => []
  | (k, v) :: rest => (k, jsonMarshal v) :: jsonMarshalObj rest
end

mutual
/-- Model of `fmt.Sprint` on a decoded JSON value (`%v` rendering):
`true`/`false`, numbers, raw strings, `[a b c]` for slices and
`map[k:v ...]` with sorted keys for maps. -/
def goSprint : Jval → GoStr
  | .null => chars "<nil>"
  | .bool b => formatBool b
  | .num q => formatFloat q
  | .str s => s
  | .arr xs => '[' :: joinSep [' '] (goSprintList xs) ++ [']']
  | .obj o =>
    'm' :: 'a' :: 'p' :: '[' ::
      joinSep [' ']
        ((sortPairs (goSprintObj o)).map (fun kv => kv.1 ++ ':' :: kv.2)) ++ [']']

/-- Render each element of a slice. -/
def goSprintList : List Jval → List GoStr
  | [] => []
  | v :: vs => goSprint v :: goSprintList vs

/-- Render each value of a map, keeping keys. -/
def goSprintObj : List (GoStr × Jval) → List (GoStr × GoStr)
  | [] => []
  | (k, v) :: rest => (k, goSprint v) :: goSprintObj rest
end

/-! ## External standard-library boundary

The repository's calls into `encoding/json`, `time.Parse` and
`strconv.ParseFloat` are modelled as an explicit record of functions;
every theorem about the pipeline quantifies over it, witnesses pick
concrete instances. -/

/-- The standard-library functions the tailing core calls:
`decode` is `json.Unmarshal` of one line into `map[string]any` (`none`
when the line is not valid JSON or not a JSON object); `timeParse` is
`time.Parse layout input` returning the parsed instant in nanoseconds
(`none` on error); `parseFloat` is `strconv.ParseFloat(input, 64)`
returning the parsed value (`none` on error). -/
structure GoLib where
  decode : GoStr → Option (List (GoStr × Jval))
  timeParse : GoStr → GoStr → Option Int
  parseFloat : GoStr → Option ℚ

/-- The layout list of `parseTimeString`, in source order:
`time.RFC3339Nano`, `time.RFC3339`, and four literal layouts. -/
def layouts : List GoStr :=
  [chars "2006-01-02T15:04:05.999999999Z07:00",
   chars "2006-01-02T15:04:05Z07:00",
   chars "2006-01-02T15:04:05.999999-07:00",
   chars "2006-01-02 15:04:05.999999",
   chars "2006-01-02 15:04:05",
   chars "02/01/2006 15:04:05"]

/-- The `for _, layout := range layouts` loop of `parseTimeString`: try
each layout in order, returning the first successful parse. -/
def tryLayouts (g : GoLib) : List GoStr → GoStr → Option Int
  | [], _ => none
  | l :: ls, input =>
    match g.timeParse l input with
    | some ts => some ts
    | none => tryLayouts g ls input

/-- `parseTimeString` from `internal/logs/entry.go`: the layout loop,
then a bare-numeric-epoch fallback through `strconv.ParseFloat` and
`parseUnixNumber`; `none` models the `(time.Time{}, false)` result. -/
def parseTimeString (g : GoLib) (input : GoStr) : Option Int :=
  match tryLayouts g layouts input with
  | some ts => some ts
  | none =>
    match g.parseFloat input with
    | some epoch => some (parseUnixNumber epoch)
    | none => none

/-- `extractTimestamp` from `internal/logs/entry.go`.  The result pair is
(`Timestamp`, `TimestampText`); `none` models the zero `time.Time{}`.
The Go switch also has `json.Number`, `int64` and `int` cases, all
unreachable for values produced by `json.Unmarshal` into
`map[string]any` (the decoder only yields `float64` numbers), so the
live arms are string, `float64`, `nil` and the default. -/
def extractTimestamp (g : GoLib) : Jval → Option Int × GoStr
  | .str v =>
    match parseTimeString g v with
    | some ts => (some ts, formatTs ts)
    | none => (none, v)
  | .num q => (some (parseUnixNumber q), formatTs (parseUnixNumber q))
  | .null => (none, [])
  | v => (none, goSprint v)

/-- `extractString` from `internal/logs/entry.go`, on the dynamic types a
decoded JSON value can carry (the `fmt.Stringer`, `json.Number`, `int64`,
`int` and default arms of the Go switch are unreachable for decoded
values): string passthrough, `nil` → empty, `float64` via
`strconv.FormatFloat(v, 'f', -1, 64)`, bool via `strconv.FormatBool`,
maps and slices via `json.Marshal`. -/
def extractString : Jval → GoStr
  | .str s => s
  | .null => []
  | .num q => formatFloat q
  | .bool b => formatBool b
  | .obj o => jsonMarshal (.obj o)
  | .arr xs => jsonMarshal (.arr xs)

/-! ## Entries and per-line parsing -/

/-- `ParserConfig` from `internal/logs/entry.go`. -/
structure ParserConfig where
  TimestampField : GoStr
  MessageField : GoStr
  ExtraFields : List GoStr

/-- `LogEntry` from `internal/logs/entry.go`.  `Extras` is the Go map
built by `parseEntry`; since every write for a given name stores the same
value, it is modelled as the association list keyed by the configured
names. -/
structure LogEntry where
  Path : GoStr
  Timestamp : Option Int
  TimestampText : GoStr
  Message : GoStr
  Extras : List (GoStr × GoStr)
  Fields : List (GoStr × Jval)
  Raw : GoStr

/-- The error `parseEntry` returns for an undecodable line:
`fmt.Errorf("parse %s: %w", path, err)`, carrying the offending path (and
here also the offending line, for bookkeeping). -/
structure ParseErrorEvent where
  path : GoStr
  line : GoStr

/-- The value stored for one configured extra-field name: the reserved
virtual name `@file` resolves to the tailed path, anything else goes
through `extractString` on the decoded field. -/
def extraValueOf (path : GoStr) (fields : List (GoStr × Jval)) (name : GoStr) : GoStr :=
  if name = chars "@file" then path else extractString (mapGet fields name)

/-- The successful branch of `parseEntry`: the entry built from already
decoded fields. -/
def parseEntryOk (g : GoLib) (path line : GoStr) (fields : List (GoStr × Jval))
    (cfg : ParserConfig) : LogEntry :=
  { Path := path
    Fields := fields
    Raw := line
    Timestamp := (extractTimestamp g (mapGet fields cfg.TimestampField)).1
    TimestampText := (extractTimestamp g (mapGet fields cfg.TimestampField)).2
    Message := extractString (mapGet fields cfg.MessageField)
    Extras := cfg.ExtraFields.map (fun name => (name, extraValueOf path fields name)) }

/-- `parseEntry` from `internal/logs/entry.go`: decode the line as a JSON
object, else fail with a parse error attributed to the path. -/
def parseEntry (g : GoLib) (path line : GoStr) (cfg : ParserConfig) :
    Except ParseErrorEvent LogEntry :=
  match g.decode line with
  | none => .error ⟨path, line⟩
  | some fields => .ok (parseEntryOk g path line fields cfg)

/-! ## Cursor state and reading -/

/-- `fileState` from `internal/config/config.go`: byte offset consumed so
far plus the pending unterminated bytes.  Offsets are file sizes, hence
`Nat`. -/
structure FileState where
  offset : Nat
  pending : List Char
deriving DecidableEq

/-- `indexOfNewline` from `internal/config/config.go`: index of the first
`'\n'`, `none` modelling the `-1` result. -/
def indexOfNewline : List Char → Option Nat
  | [] => none
  | c :: rest =>
    if c = '\n' then some 0 else (indexOfNewline rest).map (· + 1)

/-- Strip one trailing `'\r'` from a completed segment:
`if len(segment) > 0 && segment[len(segment)-1] == '\r'`. -/
def stripCR (segment : List Char) : List Char :=
  match segment.getLast? with
  | some '\r' => segment.dropLast
  | _ => segment

theorem indexOfNewline_lt {l : List Char} {i : Nat}
    (h : indexOfNewline l = some i) : i < l.length := by
  induction l generalizing i with
  | nil => simp [indexOfNewline] at h
  | cons c rest ih =>
    by_cases hc : c = '\n'
    · simp [indexOfNewline, hc] at h
      simp only [List.length_cons]
      omega
    · simp [indexOfNewline, hc] at h
      obtain ⟨j, hj, rfl⟩ := h
      have := ih hj
      simp only [List.length_cons]
      omega

/-- The inner line-extraction loop of `readNewLines`: repeatedly cut the
pending buffer at the first `'\n'`, stripping one trailing `'\r'` per
segment; returns the completed lines and the remaining pending bytes. -/
def extractLines (pending : List Char) : List (List Char) × List Char :=
  match h : indexOfNewline pending with
  | none => ([], pending)
  | some idx =>
    let rest := extractLines (pending.drop (idx + 1))
    (stripCR (pending.take idx) :: rest.1, rest.2)
termination_by pending.length
decreasing_by
  have := indexOfNewline_lt h
  simp only [List.length_drop]
  omega

/-- `readNewLines` from `internal/config/config.go`, as a pure function of
the current file content: detect truncation (`size < offset` resets the
cursor), seek to the offset, append the newly read bytes to the pending
buffer, and extract every completed line.  The Go loop reads
`'\n'`-terminated chunks; its net effect on state and output is appending
all bytes past the offset and extracting all completed lines once. -/
def readNewLines (s : FileState) (content : List Char) :
    FileState × List (List Char) :=
  let s0 := if content.length < s.offset then ⟨0, []⟩ else s
  let data := content.drop s0.offset
  let r := extractLines (s0.pending ++ data)
  (⟨s0.offset + data.length, r.2⟩, r.1)

/-- `fileState.reset`. -/
def FileState.reset (_ : FileState) : FileState := ⟨0, []⟩

/-- The lines `bufio.Scanner` with `ScanLines` yields on the whole file
content, as used by `readAll`: split at `'\n'`, strip one trailing
`'\r'` per line (also from a final unterminated line), no final empty
token after a trailing terminator. -/
def scanLines : List Char → List (List Char)
  | [] => []
  | c :: rest =>
    if c = '\n' then [] :: scanLines rest
    else if c = '\r' ∧ rest.head? = some '\n' then [] :: scanLines rest.tail
    else if c = '\r' ∧ rest = [] then [[]]
    else
      match scanLines rest with
      | [] => [[c]]
      | l :: ls => (c :: l) :: ls
termination_by l => l.length
decreasing_by
  all_goals simp_all [List.length_tail]
  omega

/-- `fileState.readAll` from `internal/config/config.go`: scan all lines,
set the offset to the file size, clear pending. -/
def readAll (content : List Char) : FileState × List (List Char) :=
  (⟨content.length, []⟩, scanLines content)

/-- The tail truncation of `Tailer.emitInitial`:
`if t.tailLines > 0 && len(lines) > t.tailLines { lines = lines[len(lines)-t.tailLines:] }`. -/
def keptLines (tailLines : Int) (lines : List (List Char)) : List (List Char) :=
  if 0 < tailLines ∧ tailLines < (lines.length : Int) then
    lines.drop (lines.length - tailLines.toNat)
  else lines

/-- The shared per-batch loop of `Tailer.emitInitial` and the
`readNewData` closure of `tailFile` (their Go bodies are identical):
skip empty lines silently, turn undecodable lines into parse errors, emit
entries for the rest, in order.  Cancellation is modelled as never
signalled. -/
def processLines (g : GoLib) (path : GoStr) (cfg : ParserConfig) :
    List (List Char) → List LogEntry × List ParseErrorEvent
  | [] => ([], [])
  | line :: rest =>
    if line = [] then processLines g path cfg rest
    else
      match parseEntry g path line cfg with
      | .error e =>
        let r := processLines g path cfg rest
        (r.1, e :: r.2)
      | .ok entry =>
        let r := processLines g path cfg rest
        (entry :: r.1, r.2)

/-- `Tailer.emitInitial` from `internal/config/config.go`: one-time full
read, optional last-N truncation, then the emission loop.  Returns the
cursor state after the initial read together with the emitted entries and
surfaced parse errors. -/
def emitInitial (g : GoLib) (cfg : ParserConfig) (tailLines : Int)
    (path content : List Char) :
    FileState × (List LogEntry × List ParseErrorEvent) :=
  let r := readAll content
  (r.1, processLines g path cfg (keptLines tailLines r.2))

/-- The `readNewData` closure of `tailFile`: one incremental read followed
by the emission loop. -/
def readNewData (g : GoLib) (cfg : ParserConfig) (path : GoStr)
    (s : FileState) (content : List Char) :
    FileState × (List LogEntry × List ParseErrorEvent) :=
  let r := readNewLines s content
  (r.1, processLines g path cfg r.2)

/-! ## Reference (spec-side) definitions -/

/-- The first successful result in a list of attempts — the "first
successful match wins" reading of the spec's layout rule. -/
def firstSome {α : Type} : List (Option α) → Option α
  | [] => none
  | some a :: _ => some a
  | none :: rest => firstSome rest

/-- The coercion table exactly as the spec states it: string passthrough;
boolean/number → textual rendering; nested object/array → compact JSON
re-serialization; absent/null → empty string. -/
def specCoerce : Jval → GoStr
  | .str s => s
  | .bool b => formatBool b
  | .num q => formatFloat q
  | .obj o => jsonMarshal (.obj o)
  | .arr xs => jsonMarshal (.arr xs)
  | .null => []

/-- Reference splitter for stating read claims: the completed
`'\n'`-terminated lines of a byte sequence (one trailing `'\r'` stripped
per line) together with the trailing unterminated remainder. -/
def linesOf : List Char → List (List Char) × List Char
  | [] => ([], [])
  | c :: rest =>
    if c = '\n' then ([] :: (linesOf rest).1, (linesOf rest).2)
    else if c = '\r' ∧ rest.head? = some '\n' then
      ([] :: (linesOf rest.tail).1, (linesOf rest.tail).2)
    else
      match linesOf rest with
      | ([], p) => ([], c :: p)
      | (l :: ls, p) => ((c :: l) :: ls, p)
termination_by l => l.length
decreasing_by
  all_goals simp_all [List.length_tail]
  omega

/-- A concrete standard-library instance for witnesses and
counterexamples: every line decodes to the empty object, no layout
parses, no float parses. -/
def trivialLib : GoLib :=
  { decode := fun _ => some []
    timeParse := fun _ _ => none
    parseFloat := fun _ => none }

/-! ## Theorems -/

/-- A sanity check that the rendering model is calibrated: the instant
`1.7e18` ns renders as the expected RFC-3339 text. -/
theorem formatTs_calibration :
    formatTs 1700000000000000000 = chars "2023-11-14T22:13:20Z" := by decide

/-- **C1, as stated, is false**: for the timestamp value `2e12`, which
falls in the `> 1e12` band, the code multiplies by `1e6` (milliseconds),
not by `1e3` (microseconds) as the claim says, so the resulting instant
differs from the claim's unit table by a factor of a thousand. -/
theorem c1_counterexample :
    parseUnixNumber 2000000000000 = 2000000000000000000 ∧
    claimedUnitNanos 2000000000000 = 2000000000000000 ∧
    parseUnixNumber 2000000000000 ≠ claimedUnitNanos 2000000000000 := by
  refine ⟨?_, ?_, ?_⟩ <;> norm_num [parseUnixNumber, claimedUnitNanos, goTrunc, timeUnix]

/-- **C1 (amended)**: for every numeric timestamp value, the parser
classifies the epoch unit by magnitude, largest first — `> 1e18` →
nanoseconds, `> 1e15` → nanoseconds, `> 1e12` → milliseconds (multiplied
by `1e6` to normalize to nanoseconds), `> 1e9` → seconds, otherwise
fractional seconds (multiplied by `1e9`) — and the resulting absolute
timestamp equals the epoch instant under that unit. -/
theorem c1_amended_unit_table (n : ℚ) :
    parseUnixNumber n = amendedUnitNanos n := by
  unfold parseUnixNumber amendedUnitNanos timeUnix
  split_ifs <;> ring

/-- **C2 (code bug)**: of the four magnitudes of the testable property,
`1700000000` (seconds), `1700000000000` (milliseconds) and
`1700000000000000000` (nanoseconds) all resolve to the instant
`1.7e18` ns = 2023-11-14T22:13:20Z, but `1700000000000000`
(microseconds) is taken by the `> 1e15` branch, which converts it as if
it were nanoseconds (the branch body is an exact duplicate of the
`> 1e18` branch, missing the `*1e3` normalization), yielding
`1.7e15` ns = 1970-01-20 instead of the same instant. -/
theorem c2_microseconds_divergence :
    parseUnixNumber 1700000000 = 1700000000000000000 ∧
    parseUnixNumber 1700000000000 = 1700000000000000000 ∧
    parseUnixNumber 1700000000000000000 = 1700000000000000000 ∧
    parseUnixNumber 1700000000000000 = 1700000000000000 ∧
    parseUnixNumber 1700000000000000 ≠ 1700000000000000000 := by
  refine ⟨?_, ?_, ?_, ?_, ?_⟩ <;> norm_num [parseUnixNumber, goTrunc, timeUnix]


/-- Helper: the entries a batch loop emits are exactly the non-empty,
decodable lines, in order (projected to their raw text). -/
theorem processLines_entries_raw (g : GoLib) (path : GoStr) (cfg : ParserConfig) :
    ∀ lines, (processLines g path cfg lines).1.map LogEntry.Raw
      = lines.filter (fun l => !l.isEmpty && (g.decode l).isSome) := by
  intro lines
  induction lines with
  | nil => simp [processLines]
  | cons line rest ih =>
    by_cases hl : line = []
    · subst hl
      simp [processLines, ih]
    · cases h : g.decode line with
      | none => simp [processLines, hl, parseEntry, h, ih]
      | some fields => simp [processLines, hl, parseEntry, h, parseEntryOk, ih]

/-- Helper: the errors a batch loop emits are exactly one per non-empty,
undecodable line, in order, attributed to the batch's path. -/
theorem processLines_errors (g : GoLib) (path : GoStr) (cfg : ParserConfig) :
    ∀ lines, (processLines g path cfg lines).2
      = (lines.filter (fun l => !l.isEmpty && (g.decode l).isNone)).map
          (fun l => ({ path := path, line := l } : ParseErrorEvent)) := by
  intro lines
  induction lines with
  | nil => simp [processLines]
  | cons line rest ih =>
    by_cases hl : line = []
    · subst hl
      simp [processLines, ih]
    · cases h : g.decode line with
      | none => simp [processLines, hl, parseEntry, h, ih]
      | some fields => simp [processLines, hl, parseEntry, h, ih]

/-- **C4**: in every read batch, each non-empty line that fails JSON
object decoding yields exactly one `ParseError` attributed to the source
path, only that line is dropped, and every other valid line of the batch
is still parsed and emitted in order — so a batch with one malformed line
among `M` valid ones yields exactly one error and exactly `M` entries. -/
theorem c4_parse_error_isolation (g : GoLib) (path : GoStr) (cfg : ParserConfig)
    (lines : List (List Char)) :
    (processLines g path cfg lines).2
      = (lines.filter (fun l => !l.isEmpty && (g.decode l).isNone)).map
          (fun l => ({ path := path, line := l } : ParseErrorEvent)) ∧
    (processLines g path cfg lines).1.map LogEntry.Raw
      = lines.filter (fun l => !l.isEmpty && (g.decode l).isSome) ∧
    (processLines g path cfg lines).2.length
      = (lines.filter (fun l => !l.isEmpty && (g.decode l).isNone)).length ∧
    (processLines g path cfg lines).1.length
      = (lines.filter (fun l => !l.isEmpty && (g.decode l).isSome)).length ∧
    (∀ (st : FileState) (content : List Char),
      (readNewData g cfg path st content).2
        = processLines g path cfg (readNewLines st content).2) := by
  refine ⟨processLines_errors g path cfg lines, processLines_entries_raw g path cfg lines,
    ?_, ?_, fun _ _ => rfl⟩
  · rw [processLines_errors g path cfg lines, List.length_map]
  · have h := congrArg List.length (processLines_entries_raw g path cfg lines)
    rwa [List.length_map] at h

/-- **C10**: a line that is empty after terminator stripping is silently
skipped by the batch loop shared by the initial and the incremental read
paths: deleting it from a batch changes neither the emitted entries nor
the emitted errors. -/
theorem c10_blank_lines_skipped (g : GoLib) (path : GoStr) (cfg : ParserConfig)
    (ls1 ls2 : List (List Char)) :
    processLines g path cfg (ls1 ++ ([] : List Char) :: ls2)
      = processLines g path cfg (ls1 ++ ls2) ∧
    (∀ (t : Int) (content : List Char),
      (emitInitial g cfg t path content).2
        = processLines g path cfg (keptLines t (scanLines content))) ∧
    (∀ (st : FileState) (content : List Char),
      (readNewData g cfg path st content).2
        = processLines g path cfg (readNewLines st content).2) := by
  refine ⟨?_, fun _ _ => rfl, fun _ _ => rfl⟩
  induction ls1 with
  | nil => simp [processLines]
  | cons a as ih =>
    by_cases ha : a = []
    · subst ha
      simp [processLines, ih]
    · cases h : parseEntry g path a cfg <;> simp [processLines, ha, h, ih]

/-- **C6**: the decoded value of the configured message field is coerced
exactly as the spec's table states — string passthrough, boolean/number
textual rendering, compact JSON for nested objects/arrays, empty string
for absent/null — and the same coercion is applied to every configured
extra field other than the reserved virtual name. -/
theorem c6_message_coercion :
    (∀ v : Jval, extractString v = specCoerce v) ∧
    (∀ (g : GoLib) (path line : GoStr) (fields : List (GoStr × Jval)) (cfg : ParserConfig),
      (parseEntryOk g path line fields cfg).Message
        = specCoerce (mapGet fields cfg.MessageField)) ∧
    (∀ (path : GoStr) (fields : List (GoStr × Jval)) (name : GoStr),
      name ≠ chars "@file" →
        extraValueOf path fields name = specCoerce (mapGet fields name)) ∧
    (∀ (fields : List (GoStr × Jval)) (name : GoStr),
      fields.lookup name = none → mapGet fields name = Jval.null) := by
  have hco : ∀ v : Jval, extractString v = specCoerce v := by
    intro v
    cases v <;> rfl
  refine ⟨hco, ?_, ?_, ?_⟩
  · intro g path line fields cfg
    simpa [parseEntryOk] using hco (mapGet fields cfg.MessageField)
  · intro path fields name hname
    simpa [extraValueOf, hname] using hco (mapGet fields name)
  · intro fields name h
    simp [mapGet, h]

/-- Witness for C6 at concrete inputs: a boolean message field renders
textually, and a missing field reads as `null`. -/
theorem c6_message_coercion_witness :
    extractString (Jval.bool true) = specCoerce (Jval.bool true) ∧
    extraValueOf (chars "/tmp/a.log") [] (chars "level") = specCoerce (mapGet [] (chars "level")) ∧
    mapGet ([] : List (GoStr × Jval)) (chars "level") = Jval.null := by
  refine ⟨c6_message_coercion.1 _, ?_, ?_⟩
  · exact c6_message_coercion.2.2.1 (chars "/tmp/a.log") [] (chars "level") (by decide)
  · exact c6_message_coercion.2.2.2 [] (chars "level") rfl

/-- Helper: looking up a configured name in the association list
`parseEntry` builds from the configured extra-field names finds the value
computed for that name. -/
theorem lookup_map_pair (f : GoStr → GoStr) :
    ∀ (L : List GoStr) (a : GoStr), a ∈ L →
      (L.map (fun x => (x, f x))).lookup a = some (f a) := by
  intro L
  induction L with
  | nil => intro a ha; cases ha
  | cons x xs ih =>
    intro a ha
    by_cases hax : a = x
    · subst hax
      simp [List.lookup]
    · have : a ∈ xs := by
        cases ha with
        | head => exact absurd rfl hax
        | tail _ h => exact h
      have hbeq : (a == x) = false := beq_eq_false_iff_ne.mpr hax
      simp [List.lookup, hbeq, ih a this]

/-- **C8**: for every parsed line and configured extra-field name, the
reserved virtual name `@file` resolves to the tailed source path whatever
the decoded JSON object contains (even a literal `@file` member), any
other name resolves through the type-to-text coercion of the decoded
field, and an absent field resolves to the empty string, not an error. -/
theorem c8_virtual_extra_field (g : GoLib) (path line : GoStr)
    (fields : List (GoStr × Jval)) (cfg : ParserConfig) (name : GoStr)
    (hmem : name ∈ cfg.ExtraFields) :
    (parseEntryOk g path line fields cfg).Extras.lookup name
      = some (if name = chars "@file" then path
              else extractString (mapGet fields name)) ∧
    (name ≠ chars "@file" → fields.lookup name = none →
      (parseEntryOk g path line fields cfg).Extras.lookup name = some []) := by
  have hmain : (parseEntryOk g path line fields cfg).Extras.lookup name
      = some (extraValueOf path fields name) := by
    simp only [parseEntryOk]
    exact lookup_map_pair (extraValueOf path fields) cfg.ExtraFields name hmem
  constructor
  · rw [hmain]
    rfl
  · intro hname habsent
    rw [hmain]
    simp [extraValueOf, hname, mapGet, habsent, extractString]

/-- Witness for C8: with `extraFields = [@file, level]` and a JSON object
that even contains a literal `@file` member, the `@file` extra is the
tailed path, and the absent `level` field yields the empty string. -/
theorem c8_virtual_extra_field_witness :
    (parseEntryOk trivialLib (chars "/var/log/app.log") (chars "{}")
        [(chars "@file", Jval.str (chars "spoof"))]
        ⟨chars "timestamp", chars "message", [chars "@file", chars "level"]⟩).Extras.lookup
        (chars "@file")
      = some (chars "/var/log/app.log") ∧
    (parseEntryOk trivialLib (chars "/var/log/app.log") (chars "{}")
        [(chars "@file", Jval.str (chars "spoof"))]
        ⟨chars "timestamp", chars "message", [chars "@file", chars "level"]⟩).Extras.lookup
        (chars "level")
      = some [] := by
  constructor
  · have h := (c8_virtual_extra_field trivialLib (chars "/var/log/app.log") (chars "{}")
      [(chars "@file", Jval.str (chars "spoof"))]
      ⟨chars "timestamp", chars "message", [chars "@file", chars "level"]⟩
      (chars "@file") (by simp)).1
    rw [h]
    simp
  · exact (c8_virtual_extra_field trivialLib (chars "/var/log/app.log") (chars "{}")
      [(chars "@file", Jval.str (chars "spoof"))]
      ⟨chars "timestamp", chars "message", [chars "@file", chars "level"]⟩
      (chars "level") (by simp)).2 (by decide) rfl

/-- Helper: the layout loop returns the first successful parse in list
order. -/
theorem tryLayouts_eq_firstSome (g : GoLib) (s : GoStr) :
    ∀ L, tryLayouts g L s = firstSome (L.map (fun l => g.timeParse l s)) := by
  intro L
  induction L with
  | nil => rfl
  | cons l ls ih =>
    cases h : g.timeParse l s with
    | some ts => simp [tryLayouts, h, firstSome]
    | none => simp [tryLayouts, h, firstSome, ih]

/-- **C5**: a string timestamp is tried against the fixed layout list in
order with the first successful match winning; if no layout matches, the
string is interpreted as a bare numeric epoch under the magnitude rule;
if that also fails, the absolute timestamp is empty and the raw string is
kept as the timestamp text. -/
theorem c5_string_timestamp_fallback (g : GoLib) (s : GoStr) :
    parseTimeString g s
      = (match firstSome (layouts.map (fun l => g.timeParse l s)) with
         | some ts => some ts
         | none => (g.parseFloat s).map parseUnixNumber) ∧
    extractTimestamp g (.str s)
      = (match parseTimeString g s with
         | some ts => (some ts, formatTs ts)
         | none => (none, s)) ∧
    layouts.length = 6 := by
  refine ⟨?_, rfl, rfl⟩
  rw [parseTimeString, tryLayouts_eq_firstSome]
  cases hf : firstSome (layouts.map fun l => g.timeParse l s) with
  | some ts => rfl
  | none => cases g.parseFloat s <;> rfl

/-- Helper: the digit loop never erases an already non-empty
accumulator. -/
theorem natDigitsAux_ne_nil :
    ∀ (fuel n : Nat) (acc : List Char), acc ≠ [] → natDigitsAux fuel n acc ≠ [] := by
  intro fuel
  induction fuel with
  | zero => intro n acc h; simpa [natDigitsAux] using h
  | succ fuel ih =>
    intro n acc h
    by_cases hn : n < 10
    · simp [natDigitsAux, hn]
    · simpa [natDigitsAux, hn] using ih (n / 10) (Nat.digitChar (n % 10) :: acc) (by simp)

/-- Helper: decimal digit strings are never empty. -/
theorem natDigits_ne_nil (n : Nat) : natDigits n ≠ [] := by
  by_cases hn : n < 10
  · simp [natDigits, natDigitsAux, hn]
  · simpa [natDigits, natDigitsAux, hn] using
      natDigitsAux_ne_nil n (n / 10) (Nat.digitChar (n % 10) :: []) (by simp)

/-- Helper: zero-padding preserves non-emptiness. -/
theorem leftPadZero_ne_nil {w : Nat} {ds : List Char} (h : ds ≠ []) :
    leftPadZero w ds ≠ [] := by
  simp [leftPadZero, List.append_eq_nil, h]

/-- Helper: the year field of a rendered timestamp is never empty. -/
theorem yearField_ne_nil (y : Int) : yearField y ≠ [] := by
  unfold yearField
  split
  · simp
  · exact leftPadZero_ne_nil (natDigits_ne_nil _)

/-- Helper: the RFC-3339 rendering of an instant is never the empty
string. -/
theorem formatTs_ne_nil (t : Int) : formatTs t ≠ [] := by
  unfold formatTs
  simp only [List.append_assoc, ne_eq, List.append_eq_nil]
  intro h
  exact yearField_ne_nil _ h.1

/-- Helper: `fmt.Sprint` of a boolean value is never empty. -/
theorem goSprint_bool_ne_nil (b : Bool) : goSprint (Jval.bool b) ≠ [] := by
  cases b <;> simp [goSprint, formatBool, chars]

/-- Helper: `fmt.Sprint` of a slice value is never empty. -/
theorem goSprint_arr_ne_nil (xs : List Jval) : goSprint (Jval.arr xs) ≠ [] := by
  simp [goSprint]

/-- Helper: `fmt.Sprint` of a map value is never empty. -/
theorem goSprint_obj_ne_nil (o : List (GoStr × Jval)) : goSprint (Jval.obj o) ≠ [] := by
  simp [goSprint]

/-- **C9, as stated, is false**: a JSON object in which the configured
timestamp field is present but `null` produces an entry whose absolute
timestamp *and* timestamp text are both empty, although the field is not
absent. -/
theorem c9_counterexample :
    (List.lookup (chars "timestamp") [(chars "timestamp", Jval.null)]).isSome = true ∧
    extractTimestamp trivialLib
        (mapGet [(chars "timestamp", Jval.null)] (chars "timestamp"))
      = (none, ([] : GoStr)) := by
  exact ⟨rfl, rfl⟩

/-- **C9 (amended)**: for every successfully parsed entry, the timestamp
text is non-empty whenever the configured timestamp field is present with
a value other than `null`, except when the value is a string that no
layout and no numeric parse matches, in which case the text is that raw
string (empty exactly when the raw string is empty); when the field is
absent or `null`, both the absolute timestamp and the text are empty; and
the entry is still emitted whenever the line decodes. -/
theorem c9_timestamp_text (g : GoLib) (v : Jval) :
    ((extractTimestamp g v).2 = ([] : GoStr) ↔
      (v = Jval.null ∨ (v = Jval.str [] ∧ parseTimeString g [] = none))) ∧
    extractTimestamp g Jval.null = (none, []) ∧
    (∀ (path line : GoStr) (fields : List (GoStr × Jval)) (cfg : ParserConfig),
      g.decode line = some fields →
        parseEntry g path line cfg = .ok (parseEntryOk g path line fields cfg)) := by
  refine ⟨?_, rfl, ?_⟩
  · cases v with
    | null => simp [extractTimestamp]
    | str s =>
      cases hp : parseTimeString g s with
      | some ts =>
        simp [extractTimestamp, hp, formatTs_ne_nil ts]
        intro hs
        rw [hs] at hp
        simp [hp]
      | none =>
        by_cases hs : s = []
        · subst hs
          simp [extractTimestamp, hp]
        · simp [extractTimestamp, hp, hs]
    | num q => simp [extractTimestamp, formatTs_ne_nil]
    | bool b => simp [extractTimestamp, goSprint_bool_ne_nil b]
    | arr xs => simp [extractTimestamp, goSprint_arr_ne_nil xs]
    | obj o => simp [extractTimestamp, goSprint_obj_ne_nil o]
  · intro path line fields cfg hdec
    simp [parseEntry, hdec]

/-- Witness for C9 (amended) at concrete inputs: a decodable line is
emitted as an entry, and the `null` timestamp value yields the empty
text. -/
theorem c9_timestamp_text_witness :
    extractTimestamp trivialLib Jval.null = (none, []) ∧
    parseEntry trivialLib (chars "/tmp/a.log") (chars "{}")
        ⟨chars "timestamp", chars "message", []⟩
      = .ok (parseEntryOk trivialLib (chars "/tmp/a.log") (chars "{}") []
          ⟨chars "timestamp", chars "message", []⟩) := by
  refine ⟨(c9_timestamp_text trivialLib Jval.null).2.1, ?_⟩
  exact (c9_timestamp_text trivialLib Jval.null).2.2
    (chars "/tmp/a.log") (chars "{}") [] ⟨chars "timestamp", chars "message", []⟩ rfl

/-- Unfolding `extractLines` when the pending buffer holds no
terminator. -/
theorem extractLines_of_none {l : List Char} (h : indexOfNewline l = none) :
    extractLines l = ([], l) := by
  rw [extractLines]
  split
  · rfl
  · rename_i i hi
    rw [h] at hi
    cases hi

/-- Unfolding `extractLines` at the first terminator. -/
theorem extractLines_of_some {l : List Char} {i : Nat}
    (h : indexOfNewline l = some i) :
    extractLines l
      = (stripCR (l.take i) :: (extractLines (l.drop (i + 1))).1,
         (extractLines (l.drop (i + 1))).2) := by
  rw [extractLines]
  split
  · rename_i hn
    rw [h] at hn
    cases hn
  · rename_i j hj
    rw [h] at hj
    cases hj
    rfl

/-- Helper: stripping the carriage return commutes with prepending a
character, as long as the prepended character is not itself the last
character of the segment (i.e. the tail is non-empty or the character is
not `'\r'`). -/
theorem stripCR_cons {c : Char} {t : List Char} (h : c ≠ '\r' ∨ t ≠ []) :
    stripCR (c :: t) = c :: stripCR t := by
  cases t with
  | nil =>
    have hc : c ≠ '\r' := by
      rcases h with h | h
      · exact h
      · exact absurd rfl h
    unfold stripCR
    simp only [List.getLast?_singleton]
    split <;> simp_all [stripCR]
  | cons d ds =>
    unfold stripCR
    rw [List.getLast?_cons_cons]
    split
    · rename_i heq
      rfl
    · rfl

/-- Helper: a terminator found at index `0` means the head character is
`'\n'`. -/
theorem indexOfNewline_zero_head {l : List Char}
    (h : indexOfNewline l = some 0) : l.head? = some '\n' := by
  cases l with
  | nil => simp [indexOfNewline] at h
  | cons c rest =>
    by_cases hc : c = '\n'
    · simp [hc]
    · simp [indexOfNewline, hc] at h

/-- Helper: a buffer with no terminator splits into no lines and itself
as remainder. -/
theorem linesOf_of_no_newline :
    ∀ l : List Char, indexOfNewline l = none → linesOf l = ([], l) := by
  intro l
  induction l with
  | nil => intro _; simp [linesOf]
  | cons c rest ih =>
    intro h
    have hc : ¬(c = '\n') := by
      intro hc
      simp [indexOfNewline, hc] at h
    have hrest : indexOfNewline rest = none := by
      simp [indexOfNewline, hc] at h
      exact h
    have hhead : ¬(c = '\r' ∧ rest.head? = some '\n') := by
      rintro ⟨-, hd⟩
      cases rest with
      | nil => simp at hd
      | cons d ds =>
        simp at hd
        simp [indexOfNewline, hd] at hrest
    rw [linesOf]
    simp only [hc, if_false, hhead, if_false]
    rw [ih hrest]

/-- The Go extraction loop (cut at the first terminator, repeat) computes
exactly the reference split into completed lines and remainder. -/
theorem extractLines_eq_linesOf (l0 : List Char) : extractLines l0 = linesOf l0 := by
  suffices H : ∀ (n : Nat) (l : List Char), l.length ≤ n → extractLines l = linesOf l by
    exact H l0.length l0 le_rfl
  intro n
  induction n with
  | zero =>
    intro l hl
    have hnil : l = [] := List.eq_nil_of_length_eq_zero (Nat.le_zero.mp hl)
    subst hnil
    rw [extractLines_of_none (l := []) rfl]
    simp [linesOf]
  | succ n ih =>
    intro l hl
    cases l with
    | nil =>
      rw [extractLines_of_none (l := []) rfl]
      simp [linesOf]
    | cons c rest =>
      have hlen : rest.length ≤ n := by
        simp only [List.length_cons] at hl
        omega
      by_cases hc : c = '\n'
      · subst hc
        have hidx : indexOfNewline ('\n' :: rest) = some 0 := by simp [indexOfNewline]
        rw [extractLines_of_some hidx]
        simp only [List.take_zero, List.drop_succ_cons, List.drop_zero]
        rw [ih rest hlen, linesOf]
        simp [stripCR]
      · by_cases h2 : c = '\r' ∧ rest.head? = some '\n'
        · obtain ⟨hcr, hh⟩ := h2
          subst hcr
          cases rest with
          | nil => simp at hh
          | cons d rest2 =>
            have hd : d = '\n' := by simpa using hh
            subst hd
            have hidx : indexOfNewline ('\r' :: '\n' :: rest2) = some 1 := by
              simp [indexOfNewline]
            rw [extractLines_of_some hidx]
            have hlen2 : rest2.length ≤ n := by
              simp only [List.length_cons] at hl
              omega
            simp only [List.take_succ_cons, List.take_zero, List.drop_succ_cons,
              List.drop_zero]
            rw [ih rest2 hlen2, linesOf]
            simp [stripCR]
        · cases hr : indexOfNewline rest with
          | none =>
            have hidx : indexOfNewline (c :: rest) = none := by
              simp [indexOfNewline, hc, hr]
            rw [extractLines_of_none hidx, linesOf_of_no_newline _ hidx]
          | some j =>
            have hidx : indexOfNewline (c :: rest) = some (j + 1) := by
              simp [indexOfNewline, hc, hr]
            have ihrest := ih rest hlen
            rw [extractLines_of_some hr] at ihrest
            have hside : c ≠ '\r' ∨ rest.take j ≠ [] := by
              by_cases hcrr : c = '\r'
              · subst hcrr
                right
                have hhne : rest.head? ≠ some '\n' := fun hhh => h2 ⟨rfl, hhh⟩
                have hj : j ≠ 0 := by
                  intro hj0
                  subst hj0
                  exact hhne (indexOfNewline_zero_head hr)
                have hrestne : rest ≠ [] := by
                  intro hre
                  rw [hre] at hr
                  simp [indexOfNewline] at hr
                simp [List.take_eq_nil_iff, hj, hrestne]
              · exact Or.inl hcrr
            rw [extractLines_of_some hidx]
            simp only [List.take_succ_cons, List.drop_succ_cons]
            rw [stripCR_cons hside, linesOf, if_neg hc, if_neg h2, ← ihrest]

/-- **C3**: whenever the file's current size is strictly below the
tracked cursor offset, the incremental read resets the cursor to offset
`0` with cleared pending bytes before reading — the result is identical
to a read from a fresh cursor — and it re-reads the entire current
content from the start, emitting every completed line of it again with no
deduplication against anything previously read (the prior state is
discarded entirely). -/
theorem c3_truncation_full_reread (s : FileState) (content : List Char)
    (h : content.length < s.offset) :
    readNewLines s content = readNewLines ⟨0, []⟩ content ∧
    readNewLines s content
      = (⟨content.length, (linesOf content).2⟩, (linesOf content).1) := by
  have hfresh : readNewLines (⟨0, []⟩ : FileState) content
      = (⟨content.length, (linesOf content).2⟩, (linesOf content).1) := by
    unfold readNewLines
    simp [extractLines_eq_linesOf]
  have hreset : readNewLines s content = readNewLines ⟨0, []⟩ content := by
    unfold readNewLines
    simp [if_pos h]
  exact ⟨hreset, hreset.trans hfresh⟩

/-- Witness for C3: a cursor at offset `5` with pending byte `x`, over a
file shrunk to the three bytes `ab\n`, re-reads and re-emits the line
`ab` from scratch. -/
theorem c3_truncation_full_reread_witness :
    ['a', 'b', '\n'].length < 5 ∧
    readNewLines ⟨5, ['x']⟩ ['a', 'b', '\n'] = (⟨3, []⟩, [['a', 'b']]) ∧
    readNewLines ⟨5, ['x']⟩ ['a', 'b', '\n'] = readNewLines ⟨0, []⟩ ['a', 'b', '\n'] := by
  have h := c3_truncation_full_reread ⟨5, ['x']⟩ ['a', 'b', '\n'] (by decide)
  refine ⟨by decide, ?_, h.1⟩
  rw [h.2]
  simp [linesOf]

/-- **C7**: at worker startup, if the configured tail length is positive
and the initial full read yields more lines than that length, exactly the
trailing `N` lines are kept — a suffix of the scanned lines, of length
exactly `N`, emitted oldest first in file order (when those lines are
non-empty and decodable, the emitted entries are exactly those lines) —
and a tail length of `0` applies no truncation. -/
theorem c7_tail_truncation (g : GoLib) (cfg : ParserConfig)
    (path content : List Char) (t : Int) :
    (0 < t → t < ((scanLines content).length : Int) →
      ((keptLines t (scanLines content)).length = t.toNat ∧
       keptLines t (scanLines content) <:+ scanLines content ∧
       ((∀ l ∈ keptLines t (scanLines content), l ≠ [] ∧ (g.decode l).isSome = true) →
         (emitInitial g cfg t path content).2.1.map LogEntry.Raw
           = keptLines t (scanLines content)))) ∧
    (t = 0 → keptLines t (scanLines content) = scanLines content) := by
  constructor
  · intro ht hlen
    have hcond : 0 < t ∧ t < ((scanLines content).length : Int) := ⟨ht, hlen⟩
    have hkept : keptLines t (scanLines content)
        = (scanLines content).drop ((scanLines content).length - t.toNat) := by
      unfold keptLines
      rw [if_pos hcond]
    refine ⟨?_, ?_, ?_⟩
    · rw [hkept, List.length_drop]
      omega
    · rw [hkept]
      exact List.drop_suffix _ _
    · intro hgood
      show (processLines g path cfg (keptLines t (scanLines content))).1.map LogEntry.Raw
        = keptLines t (scanLines content)
      rw [processLines_entries_raw]
      apply List.filter_eq_self.mpr
      intro a ha
      obtain ⟨h1, h2⟩ := hgood a ha
      simp [h1, h2]
  · intro ht0
    subst ht0
    unfold keptLines
    simp

/-- Witness for C7: with `tailLines = 3` over a pre-existing ten-line
file, startup emits exactly the last three lines, oldest first. -/
theorem c7_tail_truncation_witness :
    scanLines
        ['a', '\n', 'b', '\n', 'c', '\n', 'd', '\n', 'e', '\n',
         'f', '\n', 'g', '\n', 'h', '\n', 'i', '\n', 'j', '\n']
      = [['a'], ['b'], ['c'], ['d'], ['e'], ['f'], ['g'], ['h'], ['i'], ['j']] ∧
    keptLines 3
        (scanLines
          ['a', '\n', 'b', '\n', 'c', '\n', 'd', '\n', 'e', '\n',
           'f', '\n', 'g', '\n', 'h', '\n', 'i', '\n', 'j', '\n'])
      = [['h'], ['i'], ['j']] ∧
    (emitInitial trivialLib ⟨chars "ts", chars "msg", []⟩ 3 []
        ['a', '\n', 'b', '\n', 'c', '\n', 'd', '\n', 'e', '\n',
         'f', '\n', 'g', '\n', 'h', '\n', 'i', '\n', 'j', '\n']).2.1.map LogEntry.Raw
      = [['h'], ['i'], ['j']] := by
  have hscan : scanLines
      ['a', '\n', 'b', '\n', 'c', '\n', 'd', '\n', 'e', '\n',
       'f', '\n', 'g', '\n', 'h', '\n', 'i', '\n', 'j', '\n']
    = [['a'], ['b'], ['c'], ['d'], ['e'], ['f'], ['g'], ['h'], ['i'], ['j']] := by
    simp [scanLines]
  have hkept : keptLines 3
      (scanLines
        ['a', '\n', 'b', '\n', 'c', '\n', 'd', '\n', 'e', '\n',
         'f', '\n', 'g', '\n', 'h', '\n', 'i', '\n', 'j', '\n'])
    = [['h'], ['i'], ['j']] := by
    rw [hscan]
    simp [keptLines]
  have h := (c7_tail_truncation trivialLib ⟨chars "ts", chars "msg", []⟩ []
      ['a', '\n', 'b', '\n', 'c', '\n', 'd', '\n', 'e', '\n',
       'f', '\n', 'g', '\n', 'h', '\n', 'i', '\n', 'j', '\n'] 3).1
    (by norm_num) (by rw [hscan]; norm_num)
  refine ⟨hscan, hkept, ?_⟩
  rw [h.2.2 ?_, hkept]
  intro l hl
  rw [hkept] at hl
  simp only [List.mem_cons, List.not_mem_nil, or_false] at hl
  refine ⟨?_, rfl⟩
  rcases hl with h1 | h1 | h1 <;> simp [h1]
